import Mathlib

/-!
Verification of the timeline/redraw orchestration engine of the
`HarmonicOscillatorEnergyAnalysis` Manim scene (`src/Tutoring/solution.py`).

The development shallowly embeds the parts of the source the claims are
about: the segment keep-alive timing pattern, the bounded flowing-text
overlay stack, the harmonic-motion position/energy functions, the
per-frame redraw functions, and the superscript text formatter.
Durations and overlay positions are modelled as rationals, the physics
as real numbers, strings as lists of characters.
-/

namespace Solution

/-! ### Segment runner timing

`scene_1_oscillator_setup` and its sibling scenes execute visual actions
whose durations sum to a per-segment constant, then compute
`remaining_time = max(0, tracker.duration - actionSum)` and, if positive,
call `keep_animation_running(remaining_time)`, which plays an invisible
dummy animation of exactly that duration, advancing the render clock. -/

/-- `keep_animation_running(duration)`: plays a dummy animation of the given
`run_time`, advancing the virtual clock by exactly `duration`. -/
def keep_animation_running (clock duration : ℚ) : ℚ :=
  clock + duration

/-- `remaining_time = max(0, tracker.duration - action_duration_sum)` as in
`scene_1_oscillator_setup`. -/
def remaining_time (narration_duration action_duration_sum : ℚ) : ℚ :=
  max 0 (narration_duration - action_duration_sum)

/-- One narrated segment block: the visual actions advance the clock by the
sum `S` of their actually played durations, then the keep-alive tick runs
only when `remaining_time` is positive, as in the source pattern
`if remaining_time > 0: self.keep_animation_running(remaining_time)`.
The keep-alive is computed from the block's hard-coded action-duration
budget `B` (`4.0` in `scene_1_oscillator_setup`'s first block, `2.0` in its
second), which the source keeps distinct from the durations actually
played: `S` and `B` coincide only in blocks whose actions all have fixed
run times. -/
def run_segment (clock S B narration_duration : ℚ) : ℚ :=
  let clock1 := clock + S
  let r := remaining_time narration_duration B
  if 0 < r then keep_animation_running clock1 r else clock1

/-- The first voiceover block of `scene_1_oscillator_setup`
(`solution.py:126-149`): the played actions run
`min(3.0, tracker.duration * 0.5)` (the Create group) plus `1.0` (the
amplitude markers), while the keep-alive subtracts the hard-coded `4.0`. -/
def scene1_block1_total (clock narration_duration : ℚ) : ℚ :=
  run_segment clock (min 3 (narration_duration * (1/2)) + 1) 4 narration_duration

/-! ### Clock advance

The clock itself (`self.renderer.time`) lives in the Manim framework,
not in this repository; the repository only advances it through
`self.play(..., run_time=d)` with non-negative `d`. -/

/-- Error kinds of the clock contract. -/
inductive ClockError where
  | invalidInterval
deriving DecidableEq

/-- Modelled from the spec: the Clock `advance` operation is framework code
(the Manim renderer), absent from `src/`; the spec states that negative
deltas are rejected with `InvalidInterval` and that time only moves
forward. -/
def clock_advance (t delta : ℚ) : Except ClockError ℚ :=
  if delta < 0 then Except.error ClockError.invalidInterval
  else Except.ok (t + delta)

/-! ### Overlay stack (`add_flowing_text`)

`self.text_content_stack` starts empty; `text_center_position` is
`RIGHT * 3 + UP * 0.5` and `TEXT_FLOW_SHIFT` is `UP * 3`.  A post shifts
every existing entry by `TEXT_FLOW_SHIFT`, places the new entry at the
anchor, appends it, and finally pops and removes index 0 when the stack
exceeds six entries.  Positions are modelled as `(x, y)` rationals. -/

/-- A text object on the overlay stack: its content tag and position. -/
structure OverlayEntry where
  content : ℕ
  pos : ℚ × ℚ
deriving DecidableEq, Repr

/-- `self.text_center_position = RIGHT * 3 + UP * 0.5`. -/
def text_center_position : ℚ × ℚ := (3, 1/2)

/-- `self.TEXT_FLOW_SHIFT = UP * 3`. -/
def TEXT_FLOW_SHIFT : ℚ × ℚ := (0, 3)

/-- The upward flow animation `existing_content.animate.shift(TEXT_FLOW_SHIFT)`. -/
def shiftEntry (e : OverlayEntry) : OverlayEntry :=
  ⟨e.content, (e.pos.1 + TEXT_FLOW_SHIFT.1, e.pos.2 + TEXT_FLOW_SHIFT.2)⟩

/-- `add_flowing_text(text_content)`: move the new entry to the anchor,
shift all existing entries up, append the new entry, then evict index 0
if the stack now holds more than six entries.  Returns the new stack and
the evicted entry, if any. -/
def add_flowing_text (stack : List OverlayEntry) (c : ℕ) :
    List OverlayEntry × Option OverlayEntry :=
  let newEntry : OverlayEntry := ⟨c, text_center_position⟩
  let shifted := stack.map shiftEntry
  let s := shifted ++ [newEntry]
  if 6 < s.length then (s.drop 1, s.head?) else (s, none)

/-- The stack produced by one post (discarding the evicted entry). -/
def post (stack : List OverlayEntry) (c : ℕ) : List OverlayEntry :=
  (add_flowing_text stack c).1

/-- The overlay stack after a sequence of posts, starting from the empty
`text_content_stack` of `__init__`. -/
def stackOf (posts : List ℕ) : List OverlayEntry :=
  posts.foldl post []

/-- Variant after the spec's words, for comparison with the code: the spec
says eviction of index 0 happens *before* the shift-and-insert step, the
evicted entry being detached without taking part in the upward shift. -/
def post_spec (stack : List OverlayEntry) (c : ℕ) :
    List OverlayEntry × Option OverlayEntry :=
  let p := if stack.length = 6 then (stack.drop 1, stack.head?) else (stack, none)
  let shifted := p.1.map shiftEntry
  (shifted ++ [⟨c, text_center_position⟩], p.2)

/-! ### Physical model and per-frame redraw functions

`__init__` fixes `amplitude_visual = 1.0`, `period = 4.0`,
`equilibrium_x = -2.5`, `wall_x = -4.5` and
`DIAGRAM_BASELINE_SHIFT = UP * 0.5` (y component `0.5`).  The redraw
functions read the render clock `t` and these attributes, write nothing,
and return freshly built geometry; evaluation is therefore modelled as a
state-passing function returning the (unchanged) scene state. -/

/-- The scene attributes the redraw functions read, as set in `__init__`. -/
structure OscillatorScene where
  amplitude_visual : ℝ
  period : ℝ
  equilibrium_x : ℝ
  wall_x : ℝ
  baseline_y : ℝ

/-- The concrete attribute values assigned in `__init__`. -/
noncomputable def initScene : OscillatorScene :=
  ⟨1, 4, -5/2, -9/2, 1/2⟩

/-- `position_offset = amplitude_visual * np.cos(2 * np.pi * current_time / period)`,
the expression recomputed by every redraw and energy function. -/
noncomputable def position_offset (sc : OscillatorScene) (t : ℝ) : ℝ :=
  sc.amplitude_visual * Real.cos (2 * Real.pi * t / sc.period)

/-- The defensive clamp of `draw_constrained_mass`: if
`abs(position_offset) > amplitude_visual`, replace it by
`np.sign(position_offset) * amplitude_visual`. -/
noncomputable def mass_offset (sc : OscillatorScene) (t : ℝ) : ℝ :=
  if sc.amplitude_visual < |position_offset sc t| then
    Real.sign (position_offset sc t) * sc.amplitude_visual
  else
    position_offset sc t

/-- The geometry returned by `draw_constrained_mass`: a circle of radius
`0.2` at the computed mass position. -/
structure MassVisual where
  center : ℝ × ℝ
  radius : ℝ

/-- The geometry returned by `draw_constrained_spring`: either the
corner-point path, or the fallback straight line. -/
inductive SpringVisual where
  | path (points : List (ℝ × ℝ))
  | line (startPoint endPoint : ℝ × ℝ)

/-- `draw_constrained_mass`: reads the clock and the scene attributes,
returns a circle at `equilibrium_x + mass_offset`; it assigns no scene
attribute, so the scene state is returned unchanged. -/
noncomputable def draw_constrained_mass (sc : OscillatorScene) (t : ℝ) :
    MassVisual × OscillatorScene :=
  (⟨(sc.equilibrium_x + mass_offset sc t, sc.baseline_y), 0.2⟩, sc)

/-- `draw_constrained_spring`: computes wall and mass attachment points,
the spring length, the coil count `max(6, int(8 * spring_length / 2))`,
the `num_coils * 4` linspace sample points with a sinusoidal coil offset,
and returns the path (or a fallback line when fewer than two points); it
assigns no scene attribute, so the scene state is returned unchanged. -/
noncomputable def draw_constrained_spring (sc : OscillatorScene) (t : ℝ) :
    SpringVisual × OscillatorScene :=
  let mass_x := sc.equilibrium_x + position_offset sc t
  let wall_attachment : ℝ × ℝ := (sc.wall_x + 0.15, sc.baseline_y)
  let mass_attachment : ℝ × ℝ := (mass_x - 0.2, sc.baseline_y)
  let spring_length := Real.sqrt ((mass_attachment.1 - wall_attachment.1) ^ 2 +
    (mass_attachment.2 - wall_attachment.2) ^ 2)
  let num_coils : ℕ := max 6 (Int.toNat ⌊8 * spring_length / 2⌋)
  let spring_points : List (ℝ × ℝ) :=
    (List.range (num_coils * 4)).map fun i =>
      let tv : ℝ := (i : ℝ) / ((num_coils * 4 : ℕ) - 1 : ℝ)
      (wall_attachment.1 + tv * (mass_attachment.1 - wall_attachment.1),
       wall_attachment.2 + tv * (mass_attachment.2 - wall_attachment.2) +
         0.1 * Real.sin (2 * Real.pi * (num_coils : ℝ) * tv))
  let result :=
    if 1 < spring_points.length then SpringVisual.path spring_points
    else SpringVisual.line wall_attachment mass_attachment
  (result, sc)

/-- `velocity = -amplitude_visual * (2 * np.pi / period) * np.sin(2 * np.pi * t / period)`. -/
noncomputable def velocity (sc : OscillatorScene) (t : ℝ) : ℝ :=
  -sc.amplitude_visual * (2 * Real.pi / sc.period) * Real.sin (2 * Real.pi * t / sc.period)

/-- `ke_current = 0.5 * velocity**2`. -/
noncomputable def ke_current (sc : OscillatorScene) (t : ℝ) : ℝ :=
  0.5 * velocity sc t ^ 2

/-- `ke_max = 0.5 * (amplitude_visual * 2 * np.pi / period)**2`. -/
noncomputable def ke_max (sc : OscillatorScene) : ℝ :=
  0.5 * (sc.amplitude_visual * 2 * Real.pi / sc.period) ^ 2

/-- `get_kinetic_energy_fraction`, including the `ke_max > 1e-10` guard
with its `0.0` fallback. -/
noncomputable def get_kinetic_energy_fraction (sc : OscillatorScene) (t : ℝ) : ℝ :=
  if 1e-10 < ke_max sc then ke_current sc t / ke_max sc else 0

/-- `pe_current = 0.5 * position_offset**2`. -/
noncomputable def pe_current (sc : OscillatorScene) (t : ℝ) : ℝ :=
  0.5 * position_offset sc t ^ 2

/-- `pe_max = 0.5 * amplitude_visual**2`. -/
noncomputable def pe_max (sc : OscillatorScene) : ℝ :=
  0.5 * sc.amplitude_visual ^ 2

/-- `get_potential_energy_fraction`, including the `pe_max > 1e-10` guard
with its `0.0` fallback. -/
noncomputable def get_potential_energy_fraction (sc : OscillatorScene) (t : ℝ) : ℝ :=
  if 1e-10 < pe_max sc then pe_current sc t / pe_max sc else 0

/-! ### The superscript text formatter

`create_superscript_text` is a chain of Python `str.replace` calls.
Strings are modelled as `List Char`; `str.replace` scans left to right,
replacing non-overlapping occurrences and continuing after each
replacement. -/

/-- Recursion core of Python `str.replace`, with a fuel argument bounding
the input length so the recursion is structural. -/
def pyReplaceAux (pat rep : List Char) : ℕ → List Char → List Char
  | 0, s => s
  | _ + 1, [] => []
  | fuel + 1, c :: rest =>
    if pat.isPrefixOf (c :: rest) ∧ pat ≠ [] then
      rep ++ pyReplaceAux pat rep fuel (rest.drop (pat.length - 1))
    else
      c :: pyReplaceAux pat rep fuel rest

/-- Python `s.replace(pat, rep)` for nonempty `pat`: leftmost,
non-overlapping replacement of every occurrence. -/
def strReplace (s pat rep : List Char) : List Char :=
  pyReplaceAux pat rep s.length s

/-- Whether `pat` occurs as a contiguous substring of the second list. -/
def hasOccur (pat : List Char) : List Char → Bool
  | [] => pat.isPrefixOf []
  | c :: rest => pat.isPrefixOf (c :: rest) || hasOccur pat rest

/-- `create_superscript_text`: the source's replacement chain, in source
order. -/
def create_superscript_text (s : List Char) : List Char :=
  let s1 := strReplace s ['^', '2'] ['²']
  let s2 := strReplace s1 ['^', '3'] ['³']
  let s3 := strReplace s2 ['v', '^', '2'] ['v', '²']
  let s4 := strReplace s3 ['x', '^', '2'] ['x', '²']
  let s5 := strReplace s4 ['A', '^', '2'] ['A', '²']
  let s6 := strReplace s5 ['w', '^', '2'] ['ω', '²']
  let s7 := strReplace s6 ['o', 'm', 'e', 'g', 'a', '^', '2'] ['ω', '²']
  let s8 := strReplace s7 ['1', '0', '^', '6'] ['1', '0', '⁶']
  let s9 := strReplace s8 ['1', '0', '^', '-', '4'] ['1', '0', '⁻', '⁴']
  let s10 := strReplace s9 ['o', 'm', 'e', 'g', 'a'] ['ω']
  let s11 := strReplace s10 ['p', 'i'] ['π']
  let s12 := strReplace s11 ['t', 'h', 'e', 't', 'a'] ['θ']
  let s13 := strReplace s12 ['1', '/', '2'] ['½']
  strReplace s13 ['s', 'q', 'r', 't'] ['√']

/-- The variant of `create_superscript_text` with the replacement lines
for `"v^2"`, `"x^2"`, `"A^2"`, `"w^2"` and `"omega^2"` deleted, the
refinement target of the claim. -/
def create_superscript_text_variant (s : List Char) : List Char :=
  let s1 := strReplace s ['^', '2'] ['²']
  let s2 := strReplace s1 ['^', '3'] ['³']
  let s8 := strReplace s2 ['1', '0', '^', '6'] ['1', '0', '⁶']
  let s9 := strReplace s8 ['1', '0', '^', '-', '4'] ['1', '0', '⁻', '⁴']
  let s10 := strReplace s9 ['o', 'm', 'e', 'g', 'a'] ['ω']
  let s11 := strReplace s10 ['p', 'i'] ['π']
  let s12 := strReplace s11 ['t', 'h', 'e', 't', 'a'] ['θ']
  let s13 := strReplace s12 ['1', '/', '2'] ['½']
  strReplace s13 ['s', 'q', 'r', 't'] ['√']

/-- The position invariant of the overlay stack: the entry at stack index
`i` sits at the anchor shifted `length - 1 - i` times (its age in
insertions), and the stack never exceeds six entries. -/
def StackInv (st : List OverlayEntry) : Prop :=
  st.length ≤ 6 ∧
    ∀ i (h : i < st.length),
      (st.get ⟨i, h⟩).pos =
        (text_center_position.1 + ((st.length - 1 - i : ℕ) : ℚ) * TEXT_FLOW_SHIFT.1,
         text_center_position.2 + ((st.length - 1 - i : ℕ) : ℚ) * TEXT_FLOW_SHIFT.2)

end Solution

namespace Solution

/-! ### Helper lemmas: overlay stack -/

@[simp]
theorem content_shiftEntry (e : OverlayEntry) : (shiftEntry e).content = e.content := rfl

theorem map_content_shift (st : List OverlayEntry) :
    (st.map shiftEntry).map OverlayEntry.content = st.map OverlayEntry.content := by
  simp [List.map_map, Function.comp_def]

theorem stackOf_append (ps : List ℕ) (c : ℕ) :
    stackOf (ps ++ [c]) = post (stackOf ps) c := by
  simp [stackOf, List.foldl_append]

theorem post_eq_of_small (st : List OverlayEntry) (c : ℕ) (h : st.length < 6) :
    post st c = st.map shiftEntry ++ [(⟨c, text_center_position⟩ : OverlayEntry)] := by
  unfold post add_flowing_text
  rw [if_neg (by simp; omega)]

theorem post_eq_of_full (st : List OverlayEntry) (c : ℕ) (h : st.length = 6) :
    post st c = (st.map shiftEntry ++ [(⟨c, text_center_position⟩ : OverlayEntry)]).drop 1 := by
  unfold post add_flowing_text
  rw [if_pos (by simp [h])]

theorem map_content_post (st : List OverlayEntry) (c : ℕ) :
    (post st c).map OverlayEntry.content =
      if 6 < st.length + 1 then (st.map OverlayEntry.content ++ [c]).drop 1
      else st.map OverlayEntry.content ++ [c] := by
  unfold post add_flowing_text
  by_cases h : 6 < (st.map shiftEntry ++ [(⟨c, text_center_position⟩ : OverlayEntry)]).length
  · rw [if_pos h, if_pos (by simpa using h)]
    show ((st.map shiftEntry ++ [(⟨c, text_center_position⟩ : OverlayEntry)]).drop 1).map OverlayEntry.content = _
    rw [List.map_drop, List.map_append, map_content_shift]
    rfl
  · rw [if_neg h, if_neg (by simpa using h)]
    show ((st.map shiftEntry ++ [(⟨c, text_center_position⟩ : OverlayEntry)])).map OverlayEntry.content = _
    rw [List.map_append, map_content_shift]
    rfl

theorem stackOf_contents (ps : List ℕ) :
    (stackOf ps).map OverlayEntry.content = ps.drop (ps.length - 6) := by
  induction ps using List.reverseRecOn with
  | nil => simp [stackOf]
  | append_singleton ps c ih =>
    rw [stackOf_append]
    have hlen : (stackOf ps).length = ps.length - (ps.length - 6) := by
      have h := congrArg List.length ih
      simpa using h
    rw [map_content_post, ih]
    by_cases hsix : 6 ≤ ps.length
    · have hst6 : 6 < (stackOf ps).length + 1 := by omega
      rw [if_pos hst6]
      have hl : (ps ++ [c]).length = ps.length + 1 := by simp
      rw [hl]
      rw [List.drop_append_of_le_length (by simp; omega), List.drop_drop,
        List.drop_append_of_le_length (by omega)]
      have hidx : ps.length - 6 + 1 = ps.length + 1 - 6 := by omega
      rw [hidx]
    · have hst : ¬ 6 < (stackOf ps).length + 1 := by omega
      rw [if_neg hst]
      have h1 : ps.length - 6 = 0 := by omega
      have h2 : (ps ++ [c]).length - 6 = 0 := by simp; omega
      rw [h1, h2]
      simp

theorem stackInv_nil : StackInv [] := by
  constructor
  · simp
  · intro i h
    simp at h

theorem stackInv_post (st : List OverlayEntry) (c : ℕ) (h : StackInv st) :
    StackInv (post st c) := by
  obtain ⟨hlen, hpos⟩ := h
  by_cases h6 : st.length = 6
  · -- eviction case
    rw [post_eq_of_full st c h6]
    have hreslen : ((st.map shiftEntry ++ [(⟨c, text_center_position⟩ : OverlayEntry)]).drop 1).length = 6 := by
      simp [h6]
    refine ⟨by omega, ?_⟩
    intro i hi
    have hi6 : i < 6 := by
      rw [hreslen] at hi
      exact hi
    rw [List.get_eq_getElem, List.getElem_drop]
    by_cases hlast : 1 + i < (st.map shiftEntry).length
    · have hil : 1 + i < st.length := by simpa using hlast
      have hidx : ((st.map shiftEntry ++ [(⟨c, text_center_position⟩ : OverlayEntry)]).drop 1).length - 1 - i
          = st.length - 1 - (1 + i) + 1 := by
        rw [hreslen]; omega
      rw [hidx, List.getElem_append_left hlast, List.getElem_map]
      have hv := hpos (1 + i) hil
      rw [List.get_eq_getElem] at hv
      show (shiftEntry (st.get ⟨1 + i, hil⟩)).pos = _
      rw [List.get_eq_getElem]
      simp only [Fin.getElem_fin] at hv ⊢
      rw [shiftEntry, hv]
      simp only [TEXT_FLOW_SHIFT]
      push_cast
      rw [Prod.mk.injEq]
      constructor <;> ring
    · have hm6 : (st.map shiftEntry).length = 6 := by simp [h6]
      have hieq : i = 5 := by
        rw [hm6] at hlast
        omega
      have hidx : ((st.map shiftEntry ++ [(⟨c, text_center_position⟩ : OverlayEntry)]).drop 1).length - 1 - i = 0 := by
        rw [hreslen]; omega
      rw [hidx, List.getElem_append_right (by simpa using hlast)]
      subst hieq
      simp [hm6, TEXT_FLOW_SHIFT]
  · -- no eviction
    have hlt : st.length < 6 := by omega
    rw [post_eq_of_small st c hlt]
    have hreslen : (st.map shiftEntry ++ [(⟨c, text_center_position⟩ : OverlayEntry)]).length = st.length + 1 := by
      simp
    refine ⟨by rw [hreslen]; omega, ?_⟩
    intro i hi
    have hi2 : i < st.length + 1 := by
      rw [hreslen] at hi
      exact hi
    by_cases hil : i < (st.map shiftEntry).length
    · have hil2 : i < st.length := by simpa using hil
      have hidx : (st.map shiftEntry ++ [(⟨c, text_center_position⟩ : OverlayEntry)]).length - 1 - i
          = st.length - 1 - i + 1 := by
        rw [hreslen]; omega
      rw [List.get_eq_getElem, hidx, List.getElem_append_left hil, List.getElem_map]
      have hv := hpos i hil2
      rw [List.get_eq_getElem] at hv
      show (shiftEntry (st.get ⟨i, hil2⟩)).pos = _
      rw [List.get_eq_getElem]
      simp only [Fin.getElem_fin] at hv ⊢
      rw [shiftEntry, hv]
      simp only [TEXT_FLOW_SHIFT]
      push_cast
      rw [Prod.mk.injEq]
      constructor <;> ring
    · have hieq : i = st.length := by
        simp at hil
        omega
      have hidx : (st.map shiftEntry ++ [(⟨c, text_center_position⟩ : OverlayEntry)]).length - 1 - i = 0 := by
        rw [hreslen]; omega
      rw [List.get_eq_getElem, hidx, List.getElem_append_right (by simpa using hil)]
      subst hieq
      simp [TEXT_FLOW_SHIFT]

theorem stackInv_foldl (posts : List ℕ) :
    ∀ st, StackInv st → StackInv (posts.foldl post st) := by
  induction posts with
  | nil => intro st h; simpa using h
  | cons c rest ih =>
    intro st h
    simpa using ih (post st c) (stackInv_post st c h)

theorem stackInv_stackOf (posts : List ℕ) : StackInv (stackOf posts) :=
  stackInv_foldl posts [] stackInv_nil

theorem c4_witness_len : 0 < (stackOf [0, 1]).length := by decide

/-! ### Claim theorems -/

/-- Counterexample for C1, at the claim's cited block
(`scene_1_oscillator_setup`, first voiceover block): with narration duration
`5.0` the played actions sum to `min(3, 2.5) + 1 = 3.5 ≤ 5.0`, so the
claim's hypothesis holds, yet the keep-alive is
`max(0, 5 - 4) = 1 ≠ max(0, 5 - 3.5) = 1.5` and the total elapsed virtual
time is `4.5 ≠ 5.0`: the pad is computed from the hard-coded budget `4.0`,
not from the played action durations. -/
theorem C1_counterexample :
    min 3 ((5 : ℚ) * (1/2)) + 1 ≤ 5 ∧
      remaining_time 5 4 = 1 ∧
      remaining_time 5 4 ≠ max 0 (5 - (min 3 ((5 : ℚ) * (1/2)) + 1)) ∧
      scene1_block1_total 0 5 = 9/2 ∧
      scene1_block1_total 0 5 ≠ 0 + 5 := by
  norm_num [scene1_block1_total, run_segment, remaining_time,
    keep_animation_running, min_def, max_def]

/-- Claim C1 as amended: the keep-alive tick is computed from the block's
hard-coded action-duration budget `B`, not from the played durations; for
every segment block whose played action durations sum exactly to `B`, with
narration duration `D` at least that sum, the keep-alive is exactly
`max 0 (D - S) = D - S` and the clock ends at `c + D`: the total elapsed
virtual time equals the narration duration. -/
theorem C1_segment_keep_alive (c S B D : ℚ) (hSB : S = B) (h : S ≤ D) :
    remaining_time D B = D - S ∧ run_segment c S B D = c + D := by
  subst hSB
  have hr : remaining_time D S = D - S := by
    unfold remaining_time
    exact max_eq_right (sub_nonneg.mpr h)
  refine ⟨hr, ?_⟩
  unfold run_segment keep_animation_running
  rw [hr]
  by_cases hpos : 0 < D - S
  · rw [if_pos hpos]; ring
  · have hz : D - S = 0 := le_antisymm (not_lt.mp hpos) (sub_nonneg.mpr h)
    rw [if_neg hpos]
    have : S = D := by linarith [sub_eq_zero.mp hz]
    rw [this]

/-- Witness for the amended C1 at the spec's concrete instance (scene 1's
second voiceover block): the played action durations sum to `2.0`, equal to
the block's budget, narration lasts `5.0`; the keep-alive fills `5 - 2 = 3`
and the clock advances by exactly `5`. -/
theorem C1_witness :
    ((2 : ℚ) = 2 ∧ (2 : ℚ) ≤ 5) ∧
      (remaining_time 5 2 = 5 - 2 ∧ run_segment 0 2 2 5 = 0 + 5) :=
  ⟨⟨rfl, by norm_num⟩, C1_segment_keep_alive 0 2 2 5 rfl (by norm_num)⟩

/-- Claim C2: after every sequence of overlay posts starting from the empty
stack, the stack length is at most 6, and the surviving contents are exactly
the most recent (at most six) posts in insertion order — the oldest entries
are the evicted ones, giving FIFO eviction order. -/
theorem C2_overlay_bound (posts : List ℕ) :
    (stackOf posts).length ≤ 6 ∧
      (stackOf posts).map OverlayEntry.content = posts.drop (posts.length - 6) :=
  ⟨(stackInv_stackOf posts).1, stackOf_contents posts⟩

/-- Counterexample for C3: posting onto a full six-entry stack, the code
evicts only after the shift-and-insert, so the evicted entry has taken part
in the upward shift; the spec-order variant (evict first) detaches it
unshifted, and the two disagree on the evicted entry. -/
theorem C3_counterexample :
    (add_flowing_text (stackOf [0, 1, 2, 3, 4, 5]) 6).2 ≠
        (post_spec (stackOf [0, 1, 2, 3, 4, 5]) 6).2 ∧
      (add_flowing_text (stackOf [0, 1, 2, 3, 4, 5]) 6).2 =
        some ⟨0, (3, 37/2)⟩ ∧
      (post_spec (stackOf [0, 1, 2, 3, 4, 5]) 6).2 =
        some ⟨0, (3, 31/2)⟩ := by
  norm_num [stackOf, post, post_spec, add_flowing_text, shiftEntry,
    text_center_position, TEXT_FLOW_SHIFT]

/-- Claim C3 as amended: in a post that starts with the stack exactly at the
bound of six entries, eviction of index 0 happens *after* the shift of
existing entries and the insertion of the new entry; the evicted entry takes
part in the upward shift before being detached, and the resulting stack is
nevertheless the same as with evict-first order. -/
theorem C3_amended (st : List OverlayEntry) (c : ℕ) (h : st.length = 6) :
    (add_flowing_text st c).2 = (st.map shiftEntry).head? ∧
      (add_flowing_text st c).1 = (post_spec st c).1 := by
  cases st with
  | nil => simp at h
  | cons a rest =>
    have hr : rest.length = 5 := by simpa using h
    constructor
    · unfold add_flowing_text
      rw [if_pos (by simp [hr])]
      simp
    · unfold add_flowing_text post_spec
      rw [if_pos (by simp [hr]), if_pos h]
      simp

/-- Witness for the amended C3, at a concrete six-entry stack. -/
theorem C3_amended_witness :
    (stackOf [0, 1, 2, 3, 4, 5]).length = 6 ∧
      ((add_flowing_text (stackOf [0, 1, 2, 3, 4, 5]) 6).2 =
          ((stackOf [0, 1, 2, 3, 4, 5]).map shiftEntry).head? ∧
        (add_flowing_text (stackOf [0, 1, 2, 3, 4, 5]) 6).1 =
          (post_spec (stackOf [0, 1, 2, 3, 4, 5]) 6).1) :=
  ⟨by decide, C3_amended (stackOf [0, 1, 2, 3, 4, 5]) 6 (by decide)⟩

/-- Claim C4: after any sequence of posts, the entry at stack index `i` sits
at the fixed anchor `text_center_position` plus `TEXT_FLOW_SHIFT` multiplied
by its age in insertions (`length - 1 - i`, the number of insertions since
it was added); in particular the most recent entry (index `length - 1`)
sits exactly at the anchor. -/
theorem C4_overlay_positions (posts : List ℕ) (i : ℕ)
    (h : i < (stackOf posts).length) :
    ((stackOf posts).get ⟨i, h⟩).pos =
      (text_center_position.1 + (((stackOf posts).length - 1 - i : ℕ) : ℚ) * TEXT_FLOW_SHIFT.1,
       text_center_position.2 + (((stackOf posts).length - 1 - i : ℕ) : ℚ) * TEXT_FLOW_SHIFT.2) :=
  (stackInv_stackOf posts).2 i h

/-- Witness for C4: after two posts, the older entry (index 0) sits one
shift above the anchor. -/
theorem C4_witness :
    0 < (stackOf [0, 1]).length ∧
      ((stackOf [0, 1]).get ⟨0, c4_witness_len⟩).pos =
        (text_center_position.1 + (((stackOf [0, 1]).length - 1 - 0 : ℕ) : ℚ) * TEXT_FLOW_SHIFT.1,
         text_center_position.2 + (((stackOf [0, 1]).length - 1 - 0 : ℕ) : ℚ) * TEXT_FLOW_SHIFT.2) :=
  ⟨c4_witness_len, C4_overlay_positions [0, 1] 0 c4_witness_len⟩

/-- Claim C8: advancing the clock with a negative delta fails with
`InvalidInterval`, and with any non-negative delta it succeeds and time
moves forward only. -/
theorem C8_clock_advance (t d : ℚ) :
    (d < 0 → clock_advance t d = Except.error ClockError.invalidInterval) ∧
    (0 ≤ d → clock_advance t d = Except.ok (t + d) ∧ t ≤ t + d) := by
  constructor
  · intro h
    unfold clock_advance
    rw [if_pos h]
  · intro h
    unfold clock_advance
    rw [if_neg (not_lt.mpr h)]
    exact ⟨rfl, by linarith⟩

/-- Witness for C8: a negative delta of `-1` is rejected, a delta of `1`
advances time from `0` to `1`. -/
theorem C8_witness :
    ((-1 : ℚ) < 0 ∧ clock_advance 0 (-1) = Except.error ClockError.invalidInterval) ∧
      ((0 : ℚ) ≤ 1 ∧ (clock_advance 0 1 = Except.ok (0 + 1) ∧ (0 : ℚ) ≤ 0 + 1)) :=
  ⟨⟨by norm_num, (C8_clock_advance 0 (-1)).1 (by norm_num)⟩,
   ⟨by norm_num, (C8_clock_advance 0 1).2 (by norm_num)⟩⟩

/-! ### Helper lemmas: physical model at the `__init__` values -/

theorem position_offset_init (t : ℝ) :
    position_offset initScene t = Real.cos (2 * Real.pi * t / 4) := by
  simp [position_offset, initScene]

theorem abs_position_offset_le (t : ℝ) :
    |position_offset initScene t| ≤ initScene.amplitude_visual := by
  rw [position_offset_init]
  have ha : initScene.amplitude_visual = 1 := rfl
  rw [ha]
  exact Real.abs_cos_le_one _

theorem ke_max_init_val : ke_max initScene = Real.pi ^ 2 / 8 := by
  rw [ke_max]
  have h1 : initScene.amplitude_visual = 1 := rfl
  have h2 : initScene.period = 4 := rfl
  rw [h1, h2]
  ring

theorem ke_max_init_big : (1e-10 : ℝ) < ke_max initScene := by
  rw [ke_max_init_val]
  have h9 : (1e-10 : ℝ) < 9 / 8 := by norm_num
  nlinarith [Real.pi_gt_three]

theorem pe_max_init_val : pe_max initScene = 1 / 2 := by
  rw [pe_max]
  have h1 : initScene.amplitude_visual = 1 := rfl
  rw [h1]
  norm_num

theorem pe_max_init_big : (1e-10 : ℝ) < pe_max initScene := by
  rw [pe_max_init_val]
  norm_num

theorem ke_frac_eq (t : ℝ) :
    get_kinetic_energy_fraction initScene t = Real.sin (2 * Real.pi * t / 4) ^ 2 := by
  rw [get_kinetic_energy_fraction, if_pos ke_max_init_big, ke_current, velocity,
    ke_max_init_val]
  have h1 : initScene.amplitude_visual = 1 := rfl
  have h2 : initScene.period = 4 := rfl
  rw [h1, h2]
  have hpi := Real.pi_ne_zero
  field_simp
  ring

theorem pe_frac_eq (t : ℝ) :
    get_potential_energy_fraction initScene t = Real.cos (2 * Real.pi * t / 4) ^ 2 := by
  rw [get_potential_energy_fraction, if_pos pe_max_init_big, pe_current,
    position_offset_init, pe_max_init_val]
  field_simp
  ring

/-- Claim C5: for every time `t ≥ 0` the computed mass position offset is
bounded by the amplitude — structurally, through the cosine form — and the
defensive clamp of `draw_constrained_mass` never fires: the clamped offset
equals the raw offset. -/
theorem C5_amplitude_bound (t : ℝ) (h : 0 ≤ t) :
    |position_offset initScene t| ≤ initScene.amplitude_visual ∧
      mass_offset initScene t = position_offset initScene t := by
  refine ⟨abs_position_offset_le t, ?_⟩
  rw [mass_offset, if_neg (not_lt.mpr (abs_position_offset_le t))]

/-- Witness for C5 at `t = 0`. -/
theorem C5_witness :
    (0 : ℝ) ≤ 0 ∧
      (|position_offset initScene 0| ≤ initScene.amplitude_visual ∧
        mass_offset initScene 0 = position_offset initScene 0) :=
  ⟨le_refl 0, C5_amplitude_bound 0 (le_refl 0)⟩

/-- Claim C6: for every time `t` the kinetic and potential energy fractions
sum to `1` — they are `sin²` and `cos²` of the same phase — so the modelled
kinetic plus potential energy equals the constant total. -/
theorem C6_energy_conservation (t : ℝ) :
    get_kinetic_energy_fraction initScene t + get_potential_energy_fraction initScene t = 1 := by
  rw [ke_frac_eq t, pe_frac_eq t, Real.sin_sq_add_cos_sq]

/-- Claim C7: the per-frame redraw functions are deterministic and hide no
state: they return the scene state unchanged, and re-evaluating at the same
clock time on the returned state yields an identical visual. -/
theorem C7_idempotent_evaluation (sc : OscillatorScene) (t : ℝ) :
    (draw_constrained_mass sc t).2 = sc ∧
      (draw_constrained_spring sc t).2 = sc ∧
      (draw_constrained_mass ((draw_constrained_mass sc t).2) t).1 =
        (draw_constrained_mass sc t).1 ∧
      (draw_constrained_spring ((draw_constrained_spring sc t).2) t).1 =
        (draw_constrained_spring sc t).1 :=
  ⟨rfl, rfl, rfl, rfl⟩

/-- Claim C10: with the `__init__` values `amplitude_visual = 1.0` and
`period = 4.0`, both `ke_max` and `pe_max` exceed `1e-10`, so the
division-by-zero fallback branches of the energy-fraction functions are
unreachable, and both fractions always lie in `[0, 1]`. -/
theorem C10_fraction_safety (t : ℝ) :
    ((1e-10 : ℝ) < ke_max initScene ∧ (1e-10 : ℝ) < pe_max initScene) ∧
      get_kinetic_energy_fraction initScene t = ke_current initScene t / ke_max initScene ∧
      get_potential_energy_fraction initScene t = pe_current initScene t / pe_max initScene ∧
      (0 ≤ get_kinetic_energy_fraction initScene t ∧
        get_kinetic_energy_fraction initScene t ≤ 1) ∧
      (0 ≤ get_potential_energy_fraction initScene t ∧
        get_potential_energy_fraction initScene t ≤ 1) := by
  refine ⟨⟨ke_max_init_big, pe_max_init_big⟩, ?_, ?_, ?_, ?_⟩
  · rw [get_kinetic_energy_fraction, if_pos ke_max_init_big]
  · rw [get_potential_energy_fraction, if_pos pe_max_init_big]
  · rw [ke_frac_eq t]
    exact ⟨sq_nonneg _, Real.sin_sq_le_one _⟩
  · rw [pe_frac_eq t]
    exact ⟨sq_nonneg _, Real.cos_sq_le_one _⟩

/-! ### Helper lemmas: string replacement -/

theorem pyReplaceAux_cons (pat rep : List Char) (fuel : ℕ) (c : Char) (rest : List Char) :
    pyReplaceAux pat rep (fuel + 1) (c :: rest) =
      if pat.isPrefixOf (c :: rest) ∧ pat ≠ [] then
        rep ++ pyReplaceAux pat rep fuel (rest.drop (pat.length - 1))
      else
        c :: pyReplaceAux pat rep fuel rest := rfl

theorem singleton_isPrefixOf (a c : Char) (l : List Char) :
    ([a] : List Char).isPrefixOf (c :: l) = (a == c) := by
  simp [List.isPrefixOf]

theorem hasOccur_cons (pat : List Char) (c : Char) (rest : List Char) :
    hasOccur pat (c :: rest) = (pat.isPrefixOf (c :: rest) || hasOccur pat rest) := rfl

theorem hasOccur_of_isPrefixOf {pat s : List Char} (h : pat.isPrefixOf s = true) :
    hasOccur pat s = true := by
  cases s with
  | nil => simpa [hasOccur] using h
  | cons c rest => simp [hasOccur_cons, h]

theorem isPrefixOf_append_left (p q : List Char) :
    ∀ s : List Char, (p ++ q).isPrefixOf s = true → p.isPrefixOf s = true := by
  induction p with
  | nil => intro s _; cases s <;> rfl
  | cons a as ih =>
    intro s h
    cases s with
    | nil => simp [List.isPrefixOf] at h
    | cons b bs =>
      simp only [List.cons_append, List.isPrefixOf, Bool.and_eq_true] at h ⊢
      exact ⟨h.1, ih bs h.2⟩

theorem hasOccur_of_inner_prefix (pat suf : List Char) :
    ∀ (pre s : List Char), ((pre ++ pat) ++ suf).isPrefixOf s = true →
      hasOccur pat s = true := by
  intro pre
  induction pre with
  | nil =>
    intro s h
    simp only [List.nil_append] at h
    exact hasOccur_of_isPrefixOf (isPrefixOf_append_left pat suf s h)
  | cons a as ih =>
    intro s h
    cases s with
    | nil => simp [List.isPrefixOf] at h
    | cons b bs =>
      simp only [List.cons_append, List.isPrefixOf, Bool.and_eq_true] at h
      have hb := ih bs h.2
      simp [hasOccur_cons, hb]

theorem hasOccur_sub (pre pat suf : List Char) :
    ∀ s : List Char, hasOccur ((pre ++ pat) ++ suf) s = true →
      hasOccur pat s = true := by
  intro s
  induction s with
  | nil =>
    intro h
    exact hasOccur_of_inner_prefix pat suf pre [] (by simpa [hasOccur] using h)
  | cons c rest ih =>
    intro h
    rw [hasOccur_cons, Bool.or_eq_true] at h
    rcases h with h | h
    · exact hasOccur_of_inner_prefix pat suf pre (c :: rest) h
    · have hr := ih h
      simp [hasOccur_cons, hr]

theorem hasOccur_sub_false (pre pat suf s : List Char)
    (h : hasOccur pat s = false) :
    hasOccur ((pre ++ pat) ++ suf) s = false := by
  cases hoc : hasOccur ((pre ++ pat) ++ suf) s with
  | false => rfl
  | true =>
    have ht := hasOccur_sub pre pat suf s hoc
    rw [h] at ht
    cases ht

theorem pyReplaceAux_no_occur :
    ∀ (fuel : ℕ) (pat rep s : List Char), hasOccur pat s = false →
      pyReplaceAux pat rep fuel s = s := by
  intro fuel
  induction fuel with
  | zero => intro pat rep s h; rfl
  | succ fuel ih =>
    intro pat rep s h
    cases s with
    | nil => rfl
    | cons c rest =>
      rw [hasOccur_cons, Bool.or_eq_false_iff] at h
      rw [pyReplaceAux_cons, if_neg (by
        rintro ⟨h1, -⟩
        rw [h.1] at h1
        cases h1)]
      rw [ih pat rep rest h.2]

theorem strReplace_no_occur (s pat rep : List Char) (h : hasOccur pat s = false) :
    strReplace s pat rep = s :=
  pyReplaceAux_no_occur s.length pat rep s h

theorem pyReplaceAux_head_keep (pat : List Char) (b r : Char) (rs : List Char)
    (hbr : (b == r) = false) :
    ∀ (fuel : ℕ) (s : List Char), ([b] : List Char).isPrefixOf s = false →
      ([b] : List Char).isPrefixOf (pyReplaceAux pat (r :: rs) fuel s) = false := by
  intro fuel
  cases fuel with
  | zero => intro s h; exact h
  | succ fuel =>
    intro s h
    cases s with
    | nil => rfl
    | cons c rest =>
      rw [pyReplaceAux_cons]
      by_cases hp : pat.isPrefixOf (c :: rest) ∧ pat ≠ []
      · rw [if_pos hp, List.cons_append, singleton_isPrefixOf]
        exact hbr
      · rw [if_neg hp, singleton_isPrefixOf]
        rw [singleton_isPrefixOf] at h
        exact h

theorem no_occur_sup2_pyReplaceAux :
    ∀ (fuel : ℕ) (s : List Char), s.length ≤ fuel →
      hasOccur ['^', '2'] (pyReplaceAux ['^', '2'] ['²'] fuel s) = false := by
  intro fuel
  induction fuel with
  | zero =>
    intro s hs
    have hnil : s = [] := List.eq_nil_of_length_eq_zero (Nat.le_zero.mp hs)
    subst hnil
    rfl
  | succ fuel ih =>
    intro s hs
    cases s with
    | nil => rfl
    | cons c rest =>
      rw [pyReplaceAux_cons]
      by_cases hp : (['^', '2'] : List Char).isPrefixOf (c :: rest) ∧ (['^', '2'] : List Char) ≠ []
      · obtain ⟨hpre, -⟩ := hp
        cases rest with
        | nil => simp [List.isPrefixOf] at hpre
        | cons d u =>
          simp only [List.isPrefixOf, Bool.and_eq_true, beq_iff_eq] at hpre
          obtain ⟨hc, hd, -⟩ := hpre
          subst hc
          subst hd
          rw [if_pos (by exact ⟨by simp [List.isPrefixOf], by simp⟩)]
          have hu : u.length ≤ fuel := by
            simp only [List.length_cons] at hs
            omega
          have hX := ih (('2' :: u).drop (['^', '2'].length - 1)) (by
            simp only [List.length_cons] at hs ⊢
            simp
            omega)
          rw [List.singleton_append, hasOccur_cons, Bool.or_eq_false_iff]
          refine ⟨by simp [List.isPrefixOf], hX⟩
      · rw [if_neg hp]
        have hrest : hasOccur ['^', '2'] (pyReplaceAux ['^', '2'] ['²'] fuel rest) = false := by
          refine ih rest ?_
          simp only [List.length_cons] at hs
          omega
        rw [hasOccur_cons, Bool.or_eq_false_iff]
        refine ⟨?_, hrest⟩
        by_cases hc : c = '^'
        · subst hc
          have h2 : (['2'] : List Char).isPrefixOf rest = false := by
            cases h2v : (['2'] : List Char).isPrefixOf rest with
            | false => rfl
            | true =>
              exact absurd ⟨by simp [List.isPrefixOf, h2v], by simp⟩ hp
          have hX2 := pyReplaceAux_head_keep ['^', '2'] '2' '²' [] (by decide) fuel rest h2
          simp [List.isPrefixOf]
          exact hX2
        · have hbc : ('^' == c) = false :=
            beq_eq_false_iff_ne.mpr (fun hh => hc hh.symm)
          simp [List.isPrefixOf, hbc]

theorem no_occur_sup2_after_rep3 :
    ∀ (fuel : ℕ) (s : List Char), s.length ≤ fuel →
      hasOccur ['^', '2'] s = false →
      hasOccur ['^', '2'] (pyReplaceAux ['^', '3'] ['³'] fuel s) = false := by
  intro fuel
  induction fuel with
  | zero => intro s hs h; exact h
  | succ fuel ih =>
    intro s hs h
    cases s with
    | nil => rfl
    | cons c rest =>
      rw [hasOccur_cons, Bool.or_eq_false_iff] at h
      obtain ⟨h1, h2⟩ := h
      rw [pyReplaceAux_cons]
      by_cases hp : (['^', '3'] : List Char).isPrefixOf (c :: rest) ∧ (['^', '3'] : List Char) ≠ []
      · obtain ⟨hpre, -⟩ := hp
        cases rest with
        | nil => simp [List.isPrefixOf] at hpre
        | cons d u =>
          simp only [List.isPrefixOf, Bool.and_eq_true, beq_iff_eq] at hpre
          obtain ⟨hc, hd, -⟩ := hpre
          subst hc
          subst hd
          rw [if_pos (by exact ⟨by simp [List.isPrefixOf], by simp⟩)]
          rw [hasOccur_cons, Bool.or_eq_false_iff] at h2
          have hu : u.length ≤ fuel := by
            simp only [List.length_cons] at hs
            omega
          rw [List.singleton_append, hasOccur_cons, Bool.or_eq_false_iff]
          refine ⟨by simp [List.isPrefixOf], ?_⟩
          exact ih u hu h2.2
      · rw [if_neg hp]
        have hrest := ih rest (by simp only [List.length_cons] at hs; omega) h2
        rw [hasOccur_cons, Bool.or_eq_false_iff]
        refine ⟨?_, hrest⟩
        by_cases hc : c = '^'
        · subst hc
          have h2p : (['2'] : List Char).isPrefixOf rest = false := by
            cases h2v : (['2'] : List Char).isPrefixOf rest with
            | false => rfl
            | true =>
              rw [show (['^', '2'] : List Char).isPrefixOf ('^' :: rest) =
                  (('^' == '^') && (['2'] : List Char).isPrefixOf rest) from rfl, h2v] at h1
              simp at h1
          have hX2 := pyReplaceAux_head_keep ['^', '3'] '2' '³' [] (by decide) fuel rest h2p
          simp [List.isPrefixOf]
          exact hX2
        · have hbc : ('^' == c) = false :=
            beq_eq_false_iff_ne.mpr (fun hh => hc hh.symm)
          simp [List.isPrefixOf, hbc]

theorem no_occur_sup2_strReplace (s : List Char) :
    hasOccur ['^', '2'] (strReplace s ['^', '2'] ['²']) = false :=
  no_occur_sup2_pyReplaceAux s.length s le_rfl

theorem no_occur_sup2_rep3 (s : List Char) (h : hasOccur ['^', '2'] s = false) :
    hasOccur ['^', '2'] (strReplace s ['^', '3'] ['³']) = false :=
  no_occur_sup2_after_rep3 s.length s le_rfl h

/-- Claim C9: `create_superscript_text` returns the same output as the
variant with the `"v^2"`, `"x^2"`, `"A^2"`, `"w^2"` and `"omega^2"`
replacement lines deleted: after the initial replacement of every `"^2"`
by `"²"` the string contains no `"^2"`, so those five later replacements
never change it; in particular `"w^2"` renders as `"w²"`, never `"ω²"`. -/
theorem C9_superscript_refinement :
    (∀ s : List Char, create_superscript_text s = create_superscript_text_variant s) ∧
      (∀ s : List Char, hasOccur ['^', '2'] (strReplace s ['^', '2'] ['²']) = false) ∧
      create_superscript_text ['w', '^', '2'] = ['w', '²'] := by
  refine ⟨?_, no_occur_sup2_strReplace, by decide⟩
  intro s
  have h1 : hasOccur ['^', '2'] (strReplace s ['^', '2'] ['²']) = false :=
    no_occur_sup2_strReplace s
  have h2 : hasOccur ['^', '2']
      (strReplace (strReplace s ['^', '2'] ['²']) ['^', '3'] ['³']) = false :=
    no_occur_sup2_rep3 _ h1
  set t2 := strReplace (strReplace s ['^', '2'] ['²']) ['^', '3'] ['³'] with ht2
  have e3 : strReplace t2 ['v', '^', '2'] ['v', '²'] = t2 :=
    strReplace_no_occur _ _ _ (by simpa using hasOccur_sub_false ['v'] ['^', '2'] [] t2 h2)
  have e4 : strReplace t2 ['x', '^', '2'] ['x', '²'] = t2 :=
    strReplace_no_occur _ _ _ (by simpa using hasOccur_sub_false ['x'] ['^', '2'] [] t2 h2)
  have e5 : strReplace t2 ['A', '^', '2'] ['A', '²'] = t2 :=
    strReplace_no_occur _ _ _ (by simpa using hasOccur_sub_false ['A'] ['^', '2'] [] t2 h2)
  have e6 : strReplace t2 ['w', '^', '2'] ['ω', '²'] = t2 :=
    strReplace_no_occur _ _ _ (by simpa using hasOccur_sub_false ['w'] ['^', '2'] [] t2 h2)
  have e7 : strReplace t2 ['o', 'm', 'e', 'g', 'a', '^', '2'] ['ω', '²'] = t2 :=
    strReplace_no_occur _ _ _
      (by simpa using hasOccur_sub_false ['o', 'm', 'e', 'g', 'a'] ['^', '2'] [] t2 h2)
  simp only [create_superscript_text, create_superscript_text_variant, ← ht2]
  rw [e3, e4, e5, e6, e7]

end Solution
